import Mathlib

/-!
# Verification of the Podcast-Agent content chunker

Shallow embedding of `src/processors/content_chunker.py` (class `ContentChunker`):
transcript chunking with paragraph/sentence/word splitting, overlap injection,
chunk-analysis merging and near-duplicate removal.  Python strings are modelled
as `List Char`, Python `int` offsets as `Int`, Python `float` scores and ratios
as `ℚ`, Python dicts with a fixed key schema as structures (keys that are only
sometimes present become `Option` fields).
-/

/-- Python `str.isspace` / regex `\s` character class (ASCII range, which is all
the chunker's own separators use): space, tab, newline, carriage return,
vertical tab, form feed. -/
def isPySpace (c : Char) : Bool :=
  c = ' ' || c = '\t' || c = '\n' || c = '\r' || c = '\x0b' || c = '\x0c'

/-- The sentence-ending punctuation class `[.!?]` of
`ContentChunker.sentence_endings = r'[.!?]\s+'`. -/
def isSentPunct (c : Char) : Bool :=
  c = '.' || c = '!' || c = '?'

/-- Convenience: the character list of a string literal. -/
def strL (s : String) : List Char := s.data

/-- Worker for Python `str.split()` (no separator argument): split on runs of
whitespace, returning no empty words.  `cur` is the reversed word being read. -/
def wordsAux (cur : List Char) : List Char → List (List Char)
  | [] => if cur = [] then [] else [cur.reverse]
  | c :: rest =>
    if isPySpace c then
      if cur = [] then wordsAux [] rest else cur.reverse :: wordsAux [] rest
    else
      wordsAux (c :: cur) rest

/-- Python `text.split()`: whitespace-separated words, empties dropped. -/
def pySplit (l : List Char) : List (List Char) := wordsAux [] l

/-- Remove a trailing whitespace run (second half of Python `str.strip()`). -/
def dropTrailingWs (l : List Char) : List Char :=
  (l.reverse.dropWhile isPySpace).reverse

/-- Python `str.strip()`: remove leading and trailing whitespace. -/
def pyStrip (l : List Char) : List Char :=
  dropTrailingWs (l.dropWhile isPySpace)

/-- Python `str.lower()` (character-wise, as for the ASCII text the dedup
logic compares). -/
def pyLower (l : List Char) : List Char := l.map Char.toLower

/-- Head-is-whitespace test used when matching `\s+` after a punctuation mark. -/
def firstIsSpace : List Char → Bool
  | [] => false
  | c :: _ => isPySpace c

/-- Worker for `re.split(r'[.!?]\s+', s)`: a separator is one of `.!?`
followed by a maximal (greedy `\s+`) whitespace run, matched leftmost as
Python `re` does.  `acc` is the reversed current piece; `skipping = true`
means we are inside the whitespace run of a separator that was already
matched (then `acc = []`). -/
def sentSplitAux (skipping : Bool) (acc : List Char) : List Char → List (List Char)
  | [] => [acc.reverse]
  | c :: rest =>
    if skipping && isPySpace c then sentSplitAux true [] rest
    else if isSentPunct c && firstIsSpace rest then
      acc.reverse :: sentSplitAux true [] rest
    else
      sentSplitAux false (c :: acc) rest

/-- `re.split(self.sentence_endings, s)` with `sentence_endings = r'[.!?]\s+'`. -/
def sentSplit (l : List Char) : List (List Char) := sentSplitAux false [] l

/-- Worker for `re.split(r'\n\s*\n', s)`: a separator starts at a `'\n'` and,
greedily, runs to the last `'\n'` of the maximal whitespace run starting
there (the run must contain a second `'\n'` for the pattern to match).
`pend = some p` holds the reversed whitespace run read so far, which began
with `'\n'`; whether it was a separator is decided when the run ends. -/
def paraSplitAux (pend : Option (List Char)) (acc : List Char) : List Char → List (List Char)
  | [] =>
    match pend with
    | none => [acc.reverse]
    | some p =>
      if 2 ≤ p.count '\n' then
        [acc.reverse, (p.takeWhile (fun d => d ≠ '\n')).reverse]
      else
        [(p ++ acc).reverse]
  | c :: rest =>
    match pend with
    | none =>
      if c = '\n' then paraSplitAux (some ['\n']) acc rest
      else paraSplitAux none (c :: acc) rest
    | some p =>
      if isPySpace c then paraSplitAux (some (c :: p)) acc rest
      else
        if 2 ≤ p.count '\n' then
          acc.reverse :: paraSplitAux none (c :: p.takeWhile (fun d => d ≠ '\n')) rest
        else
          paraSplitAux none (c :: (p ++ acc)) rest

/-- `re.split(self.paragraph_breaks, s)` with `paragraph_breaks = r'\n\s*\n'`. -/
def paraSplit (l : List Char) : List (List Char) := paraSplitAux none [] l

-- quick sanity examples (checked at compile time)
example : pySplit (strL "  hi  there ") = [strL "hi", strL "there"] := by decide
example : pyStrip (strL "  a b \n") = strL "a b" := by decide
example : sentSplit (strL "Way! No go") = [strL "Way", strL "No go"] := by decide
example : sentSplit (strL "abc. ") = [strL "abc", strL ""] := by decide
example : sentSplit (strL "a.  b? c") = [strL "a", strL "b", strL "c"] := by decide
example : paraSplit (strL "a\n \nb") = [strL "a", strL "b"] := by decide
example : paraSplit (strL "a\nb") = [strL "a\nb"] := by decide
example : paraSplit (strL "a\n\n  b\n\n\nc") = [strL "a", strL "  b", strL "c"] := by decide

/-!
## Data model

`RawChunk` is the intermediate chunk dict built by the splitting helpers
(`text`, `start_char`, `end_char`, `is_complete`, and after overlap injection
also `has_overlap` / `overlap_size`).  `OutChunk` is the dict returned by
`chunk_transcript` (fields that are present only on some code paths are
`Option`s, mirroring dict-key presence).
-/

structure ChunkerCfg where
  max_chunk_size : Nat
  overlap_size : Nat
deriving DecidableEq, Repr

structure RawChunk where
  text : List Char
  start_char : Int
  end_char : Int
  is_complete : Bool
  has_overlap : Bool := false
  overlap_size : Option Nat := none
deriving DecidableEq, Repr

structure OutChunk where
  chunk_id : Nat
  text : List Char
  start_char : Int
  end_char : Int
  word_count : Nat
  is_complete : Bool
  char_count : Option Nat := none
  has_overlap : Option Bool := none
  context_preserved : Option Bool := none
  error : Option (List Char) := none
deriving DecidableEq, Repr

/-- A chunk dict as appended by the splitting helpers:
`end_char = start_char + len(text)` by construction. -/
def mkChunk (text : List Char) (start : Int) (complete : Bool) : RawChunk :=
  { text := text, start_char := start, end_char := start + (text.length : Int),
    is_complete := complete }

/-- `chunks[-1]['end_char']`, with a default for the empty list (unreachable at
every call site: the helpers below always return a nonempty chunk list when the
source indexes `chunks[-1]`; Python would raise an `IndexError` there, which the
top-level `try` of `chunk_transcript` would turn into the fallback chunk). -/
def lastEnd (cs : List RawChunk) (dflt : Int) : Int :=
  match cs.getLast? with
  | some c => c.end_char
  | none => dflt

/-- Loop of `ContentChunker._split_by_words` over `words = text.split()`:
greedily pack words (joined by a single space) while the packed text stays
within `maxSize`; a single word longer than `maxSize` becomes its own chunk. -/
def splitByWordsLoop (maxSize : Nat) : List (List Char) → List Char → Int → List RawChunk
  | [], cur, start => if cur = [] then [] else [mkChunk cur start false]
  | w :: rest, cur, start =>
    let test := if cur = [] then w else cur ++ ' ' :: w
    if test.length ≤ maxSize then
      splitByWordsLoop maxSize rest test start
    else
      if cur = [] then
        splitByWordsLoop maxSize rest w start
      else
        mkChunk cur start false :: splitByWordsLoop maxSize rest w (start + (cur.length : Int))

/-- `ContentChunker._split_by_words(text, start_pos)`. -/
def split_by_words (maxSize : Nat) (text : List Char) (startPos : Int) : List RawChunk :=
  splitByWordsLoop maxSize (pySplit text) [] startPos

/-- Loop of `ContentChunker._split_large_paragraph` over
`sentences = re.split(r'[.!?]\s+', paragraph)`: strip each piece, skip empties,
re-append `". "` to every piece but the last, pack pieces while within
`maxSize`, and hand oversized single pieces to `_split_by_words`. -/
def splitLargeParagraphLoop (maxSize : Nat) : List (List Char) → List Char → Int → List RawChunk
  | [], cur, start => if cur = [] then [] else [mkChunk cur start false]
  | s0 :: rest, cur, start =>
    let s1 := pyStrip s0
    if s1 = [] then splitLargeParagraphLoop maxSize rest cur start
    else
      let s := if rest = [] then s1 else s1 ++ ('.' :: ' ' :: [])
      let test := cur ++ s
      if test.length ≤ maxSize then
        splitLargeParagraphLoop maxSize rest test start
      else
        let flushed := if cur = [] then [] else [mkChunk cur start false]
        let start1 := if cur = [] then start else start + (cur.length : Int)
        if maxSize < s.length then
          let wc := split_by_words maxSize s start1
          flushed ++ wc ++ splitLargeParagraphLoop maxSize rest [] (lastEnd wc start1)
        else
          flushed ++ splitLargeParagraphLoop maxSize rest s start1

/-- `ContentChunker._split_large_paragraph(paragraph, start_pos)`. -/
def split_large_paragraph (maxSize : Nat) (para : List Char) (startPos : Int) : List RawChunk :=
  splitLargeParagraphLoop maxSize (sentSplit para) [] startPos

/-- Loop of `ContentChunker._chunk_with_context_preservation` over
`paragraphs = re.split(r'\n\s*\n', transcript)`: strip each paragraph, skip
empties, pack paragraphs (joined by `"\n\n"`) while within `maxSize`, and hand
oversized single paragraphs to `_split_large_paragraph`. -/
def chunkWithContextLoop (maxSize : Nat) : List (List Char) → List Char → Int → List RawChunk
  | [], cur, start => if cur = [] then [] else [mkChunk cur start true]
  | p0 :: rest, cur, start =>
    let p := pyStrip p0
    if p = [] then chunkWithContextLoop maxSize rest cur start
    else
      let test := if cur = [] then p else cur ++ ('\n' :: '\n' :: p)
      if test.length ≤ maxSize then
        chunkWithContextLoop maxSize rest test start
      else
        let flushed := if cur = [] then [] else [mkChunk cur start true]
        let start1 := if cur = [] then start else start + (cur.length : Int)
        if maxSize < p.length then
          let sc := split_large_paragraph maxSize p start1
          flushed ++ sc ++ chunkWithContextLoop maxSize rest [] (lastEnd sc start1)
        else
          flushed ++ chunkWithContextLoop maxSize rest p start1

/-- `ContentChunker._chunk_with_context_preservation(transcript)` before the
final overlap step (the chunks whose `text` is the claims' "core text"). -/
def chunkWithContextCore (maxSize : Nat) (t : List Char) : List RawChunk :=
  chunkWithContextLoop maxSize (paraSplit t) [] 0

/-- The visible continuation marker inserted between the injected overlap text
and a chunk's own text. -/
def contMarker : List Char := strL "\n\n[... continuing ...]\n\n"

/-- The overlap text taken from the end of the previous chunk: up to
`overlap_size` trailing characters, replaced by the last piece of their
`re.split(r'[.!?]\s+', ...)` split when that split has more than one piece. -/
def overlapTextOf (cfg : ChunkerCfg) (prevText : List Char) : List Char :=
  let ovStart := prevText.length - cfg.overlap_size
  let ov := prevText.drop ovStart
  let sents := sentSplit ov
  if 1 < sents.length then sents.getLastD ov else ov

/-- The overlapped chunk dict built for `chunks[i]` (i ≥ 1) from
`chunks[i-1]` in `ContentChunker._add_overlap_to_chunks`. -/
def mkOverlapChunk (cfg : ChunkerCfg) (prev cur : RawChunk) : RawChunk :=
  let ov := overlapTextOf cfg prev.text
  { text := ov ++ contMarker ++ cur.text,
    start_char := cur.start_char - (ov.length : Int),
    end_char := cur.end_char,
    is_complete := cur.is_complete,
    has_overlap := true,
    overlap_size := some ov.length }

/-- `ContentChunker._add_overlap_to_chunks(chunks, full_transcript)` (the
`full_transcript` argument is unused by the source). -/
def add_overlap_to_chunks (cfg : ChunkerCfg) (chunks : List RawChunk) : List RawChunk :=
  if chunks.length ≤ 1 || cfg.overlap_size = 0 then chunks
  else
    match chunks with
    | [] => []
    | c :: rest => c :: List.zipWith (mkOverlapChunk cfg) (c :: rest) rest

/-- `ContentChunker._chunk_with_context_preservation(transcript)` including the
final overlap step guarded by `overlap_size > 0`. -/
def chunk_with_context_preservation (cfg : ChunkerCfg) (t : List Char) : List RawChunk :=
  let cs := chunkWithContextCore cfg.max_chunk_size t
  if 0 < cfg.overlap_size then add_overlap_to_chunks cfg cs else cs

/-- Last match end within a character window, as the
`for match in re.finditer(r'[.!?]\s+', ...)` loop of `_chunk_simple` computes
it: `match.end()` lies one past the matched punctuation *and its whole greedy
whitespace run*.  `pos` is the index of the head of `l` inside the window,
`best` the last match end seen so far, and `skipping = true` means the scanner
is inside the whitespace run of the current match (each further whitespace
character extends that match's end). -/
def lastSentEndAux (pos : Nat) (best : Option Nat) (skipping : Bool) :
    List Char → Option Nat
  | [] => best
  | c :: rest =>
    if skipping && isPySpace c then
      lastSentEndAux (pos + 1) (some (pos + 1)) true rest
    else if isSentPunct c && firstIsSpace rest then
      lastSentEndAux (pos + 1) best true rest
    else
      lastSentEndAux (pos + 1) best false rest

/-- The cut position chosen by one iteration of `_chunk_simple`: a window of
`maxSize` characters, pulled back to the last `[.!?]\s+` match end found in
the trailing 200 characters of the window (when the window does not already
reach the end of the transcript). -/
def simpleEndPos (maxSize : Nat) (t : List Char) (pos : Nat) : Nat :=
  let end0 := min (pos + maxSize) t.length
  if end0 < t.length then
    match lastSentEndAux 0 none false
        ((t.drop (max (end0 - 200) pos)).take (end0 - max (end0 - 200) pos)) with
    | some e => max (end0 - 200) pos + e
    | none => end0
  else end0

/-- The `while` loop of `ContentChunker._chunk_simple`: cut at
`simpleEndPos`, strip the slice, keep it if nonempty, continue after the cut.
When the cut makes no progress (`endPos ≤ pos`, possible only for
`maxSize = 0`) the Python loop repeats the identical iteration forever; this
divergence is modelled as `none`.  `some cs` is the returned chunk list of a
terminating run. -/
def chunkSimpleLoop (maxSize : Nat) (t : List Char) (pos : Nat) :
    Option (List RawChunk) :=
  if hpos : pos < t.length then
    let endPos := simpleEndPos maxSize t pos
    if hlt : endPos ≤ pos then none
    else
      match chunkSimpleLoop maxSize t endPos with
      | none => none
      | some tail =>
        let chunkText := pyStrip ((t.drop pos).take (endPos - pos))
        if chunkText = [] then some tail
        else
          some ({ text := chunkText, start_char := (pos : Int),
                  end_char := (endPos : Int),
                  is_complete := endPos = t.length } :: tail)
  else some []
termination_by t.length - pos
decreasing_by
  simp only [not_le] at hlt
  omega

/-- `ContentChunker._chunk_simple(transcript)` (`none` = the source loop does
not terminate, which happens exactly when `maxSize = 0` and the transcript is
nonempty). -/
def chunk_simple (cfg : ChunkerCfg) (t : List Char) : Option (List RawChunk) :=
  chunkSimpleLoop cfg.max_chunk_size t 0

/-- The single complete chunk returned when `len(transcript) <= max_chunk_size`
(lines 38–46 of the source). -/
def singlePassChunk (t : List Char) : OutChunk :=
  { chunk_id := 1, text := t, start_char := 0, end_char := (t.length : Int),
    word_count := (pySplit t).length, is_complete := true }

/-- The per-chunk metadata enrichment of lines 56–69 (`i` is the 0-based
enumeration index). -/
def enhanceChunk (preserveContext : Bool) (i : Nat) (c : RawChunk) : OutChunk :=
  { chunk_id := i + 1, text := c.text, start_char := c.start_char,
    end_char := c.end_char, word_count := (pySplit c.text).length,
    char_count := some c.text.length, is_complete := c.is_complete,
    has_overlap := some c.has_overlap, context_preserved := some preserveContext }

/-- Body of the `try` block of `ContentChunker.chunk_transcript` (`none` = the
body does not terminate, which only the `preserve_context = false` path can
cause, via `chunk_simple` at `max_chunk_size = 0`). -/
def chunkTranscriptBody (cfg : ChunkerCfg) (t : List Char) (preserveContext : Bool) :
    Option (List OutChunk) :=
  if t.length ≤ cfg.max_chunk_size then some [singlePassChunk t]
  else
    match
      (if preserveContext then some (chunk_with_context_preservation cfg t)
       else chunk_simple cfg t) with
    | none => none
    | some chunks =>
      some (chunks.enum.map (fun ic => enhanceChunk preserveContext ic.1 ic.2))

/-- The `try` body as a fallible computation: where it terminates it returns
`Except.ok`; the `Except` type records where a Python exception would
propagate to the handler, and the outer `Option` keeps the source's
divergence (`none`) apart from both normal and exceptional returns. -/
def chunkTranscriptE (cfg : ChunkerCfg) (t : List Char) (preserveContext : Bool) :
    Option (Except (List Char) (List OutChunk)) :=
  (chunkTranscriptBody cfg t preserveContext).map Except.ok

/-- The single fallback chunk built by the `except` handler (lines 74–85):
the whole transcript, tagged with the error text. -/
def errorFallbackChunk (t : List Char) (e : List Char) : OutChunk :=
  { chunk_id := 1, text := t, start_char := 0, end_char := (t.length : Int),
    word_count := (pySplit t).length, is_complete := true, error := some e }

/-- The `try/except` wrapper of `chunk_transcript`: any error from the body is
converted into the single tagged fallback chunk; nothing is re-raised. -/
def handleChunkError (t : List Char) : Except (List Char) (List OutChunk) → List OutChunk
  | Except.ok cs => cs
  | Except.error e => [errorFallbackChunk t e]

/-- `ContentChunker.chunk_transcript(transcript, preserve_context)` (`none` =
the call does not terminate; a `while` loop that makes no progress is not an
exception, so it is not caught by the `except` handler). -/
def chunk_transcript (cfg : ChunkerCfg) (t : List Char) (preserveContext : Bool) :
    Option (List OutChunk) :=
  (chunkTranscriptE cfg t preserveContext).map (handleChunkError t)

/-- The segments' *core text* for the context-preserving path: the chunks of
`chunk_transcript` before overlap injection (overlap injection only prepends
`overlapTextOf ... ++ contMarker` to `text` and moves `start_char`; the claims
about core text quantify over exactly these chunks). -/
def coreSegments (cfg : ChunkerCfg) (t : List Char) : List RawChunk :=
  if t.length ≤ cfg.max_chunk_size then [mkChunk t 0 true]
  else chunkWithContextCore cfg.max_chunk_size t

/-!
## Deduplicator/Ranker and Merger

`ContentChunker._deduplicate_and_rank` and `ContentChunker.merge_chunk_analyses`.
Python's `set` of lowered seen items is modelled as a list (only its membership
is ever used, via the any-scan); `sorted(key=..., reverse=True)` is modelled by
Mathlib's stable `List.insertionSort` with the "key not smaller" relation.
-/

/-- The word set of a text: Python `set(text.split())`. -/
def wordFinset (l : List Char) : Finset (List Char) := (pySplit l).toFinset

/-- The similarity test of lines 400–411, applied to an incoming item's
lowered+stripped text `a` and one already-seen lowered text `b`: when both
word sets are nonempty, word-overlap `|W_a ∩ W_b| / max(|W_a|, |W_b|) > 0.8`
(the float `0.8` is the rational `4/5`); otherwise no duplicate. -/
def isDupPair (a b : List Char) : Bool :=
  let w1 := wordFinset a
  let w2 := wordFinset b
  if 0 < w1.card && 0 < w2.card then
    decide ((4 : ℚ) / 5 < ((w1 ∩ w2).card : ℚ) / (max w1.card w2.card : ℚ))
  else false

/-- The deduplication scan of `_deduplicate_and_rank` (lines 392–415): each
item is dropped when its lowered+stripped text is near-duplicate with some
already-accepted item's lowered+stripped text, else accepted and remembered. -/
def dedupScan (seen : List (List Char)) : List (List Char) → List (List Char)
  | [] => []
  | item :: rest =>
    let il := pyStrip (pyLower item)
    if seen.any (fun s => isDupPair il s) then dedupScan seen rest
    else item :: dedupScan (il :: seen) rest

/-- The ranking key of line 418: `(len(x.split()), len(x))`. -/
def rankKey (x : List Char) : Nat × Nat := ((pySplit x).length, x.length)

/-- Lexicographic comparison of ranking keys (Python tuple `<`). -/
def keyLt (a b : Nat × Nat) : Prop := a.1 < b.1 ∨ (a.1 = b.1 ∧ a.2 < b.2)

instance : DecidableRel keyLt := fun a b => by
  unfold keyLt; infer_instance

/-- "Ranks at least as high": the relation under which Python's stable
`sorted(key=rankKey, reverse=True)` orders the survivors. -/
def rankGe (a b : List Char) : Prop := ¬ keyLt (rankKey a) (rankKey b)

instance : DecidableRel rankGe := fun a b => by
  unfold rankGe; infer_instance

/-- `ContentChunker._deduplicate_and_rank(items, max_items)`. -/
def deduplicate_and_rank (items : List (List Char)) (maxItems : Nat := 5) :
    List (List Char) :=
  if items = [] then []
  else (List.insertionSort rankGe (dedupScan [] items)).take maxItems

/-- A per-chunk analysis record (the `analysis` dict shape produced by the
analyzer and consumed by the merger; `.get` defaults become field defaults). -/
structure Analysis where
  main_alpha : List (List Char) := []
  key_insights : List (List Char) := []
  actionable_takeaways : List (List Char) := []
  key_quotes : List (List Char) := []
  content_category : List Char := strL "general"
  main_topics : List (List Char) := []
  confidence_score : ℚ := 0
deriving DecidableEq, Repr

/-- One element of the `chunk_analyses` list: a wrapper dict with an
`analysis` entry. -/
structure ChunkAnalysis where
  analysis : Analysis
deriving DecidableEq, Repr

/-- The merge result: either the literal empty dict `{}` (returned for an
empty input list) or a populated analysis record. -/
inductive MergeResult where
  | emptyDict
  | record (a : Analysis)
deriving DecidableEq, Repr

/-- Python `dict` keys in insertion order = first-occurrence order of the
counted values (used for `topic_counts.keys()` / `category_counts.keys()`). -/
def firstOccKeys (l : List (List Char)) : List (List Char) :=
  l.foldl (fun acc x => if x ∈ acc then acc else acc ++ [x]) []

/-- Python `max(keys, key=counts.get)`: first key (in iteration order) whose
count is maximal; `none` on an empty list (where Python raises `ValueError`). -/
def pyMaxByCount (cnt : List Char → Nat) : List (List Char) → Option (List Char) :=
  List.foldl
    (fun acc x =>
      match acc with
      | none => some x
      | some m => if cnt m < cnt x then some x else some m)
    none

/-- `sorted(topic_counts.keys(), key=lambda x: topic_counts[x], reverse=True)`:
stable descending by count. -/
def sortTopicsByCount (cnt : List Char → Nat) (keys : List (List Char)) :
    List (List Char) :=
  List.insertionSort (fun a b => cnt b ≤ cnt a) keys

/-- `ContentChunker.merge_chunk_analyses(chunk_analyses)`.  The three arms
mirror lines 312–316 (empty input → `{}`, singleton → its `analysis`
unchanged) and lines 320–378 (the real merge).  The per-category collection
loop of lines 339–349 concatenates the chunks' lists in chunk order and keeps
exactly the strictly positive confidence scores. -/
def merge_chunk_analyses (chunkAnalyses : List ChunkAnalysis) : MergeResult :=
  match chunkAnalyses with
  | [] => MergeResult.emptyDict
  | [c] => MergeResult.record c.analysis
  | cs =>
    let allAlpha := cs.flatMap (fun c => c.analysis.main_alpha)
    let allInsights := cs.flatMap (fun c => c.analysis.key_insights)
    let allTakeaways := cs.flatMap (fun c => c.analysis.actionable_takeaways)
    let allQuotes := cs.flatMap (fun c => c.analysis.key_quotes)
    let allTopics := cs.flatMap (fun c => c.analysis.main_topics)
    let confidenceScores := (cs.map (fun c => c.analysis.confidence_score)).filter
      (fun q => 0 < q)
    let topicCnt := fun x => allTopics.count x
    let categories := cs.map (fun c => c.analysis.content_category)
    let catCnt := fun x => categories.count x
    MergeResult.record
      { main_alpha := deduplicate_and_rank allAlpha 5
        key_insights := deduplicate_and_rank allInsights 6
        actionable_takeaways := deduplicate_and_rank allTakeaways 6
        key_quotes := deduplicate_and_rank allQuotes 4
        main_topics := (sortTopicsByCount topicCnt (firstOccKeys allTopics)).take 5
        confidence_score :=
          if confidenceScores = [] then 0
          else confidenceScores.sum / (confidenceScores.length : ℚ)
        content_category :=
          (pyMaxByCount catCnt (firstOccKeys categories)).getD (strL "general") }

/-!
## Statement helpers and spec-side definitions
-/

/-- Concatenation, in sequence order, of segments' text. -/
def concatText (cs : List RawChunk) : List Char := (cs.map RawChunk.text).flatten

/-- A text with all whitespace removed: two texts are equal up to whitespace
normalization exactly when their `noWsChars` agree. -/
def noWsChars (l : List Char) : List Char := l.filter (fun c => ! isPySpace c)

/-- A text with whitespace and the sentence-delimiter punctuation `[.!?]`
removed (the characters the chunker is allowed to rewrite). -/
def sigChars (l : List Char) : List Char :=
  l.filter (fun c => ! (isPySpace c || isSentPunct c))

/-- Modelled from the spec's words for the near-duplicate test (claim C3):
"the lower-cased word-set overlap ratio — intersection size divided by the
larger of the two word-set sizes — exceeds 0.8", with no emptiness guard
(a ratio with zero denominator is 0 in `ℚ`). -/
def specNearDup (a b : List Char) : Bool :=
  let w1 := wordFinset (pyLower a)
  let w2 := wordFinset (pyLower b)
  decide ((4 : ℚ) / 5 < ((w1 ∩ w2).card : ℚ) / (max w1.card w2.card : ℚ))

/-- Modelled from the spec's words for the dedup scan (claim C3): "each new
candidate is compared against all previously accepted candidates in that
category; if any comparison exceeds the threshold, the new candidate is
dropped (first-seen wins)". -/
def specDedup (kept : List (List Char)) : List (List Char) → List (List Char)
  | [] => []
  | x :: rest =>
    if kept.any (fun p => specNearDup x p) then specDedup kept rest
    else x :: specDedup (kept ++ [x]) rest

/-!
## Claim theorems: the directly computable ones
-/

/-- **C10.** Merging an empty list of chunk analyses returns the literal empty
dict (line 312–313), not a populated analysis record (and, the embedding being
total, no exception). -/
theorem merge_empty_returns_empty_dict :
    merge_chunk_analyses [] = MergeResult.emptyDict ∧
    ∀ a : Analysis, merge_chunk_analyses [] ≠ MergeResult.record a :=
  ⟨rfl, fun _ h => MergeResult.noConfusion h⟩

/-- **C5.** Merging a singleton list returns that element's analysis record
unchanged (lines 315–316): no deduplication, ranking, capping or
recomputation is applied to it. -/
theorem merge_single_identity (c : ChunkAnalysis) :
    merge_chunk_analyses [c] = MergeResult.record c.analysis := rfl

/-- **C8.** Whenever `len(transcript) <= max_chunk_size` (in particular for
the empty transcript), `chunk_transcript` returns exactly one segment whose
text is the whole transcript, spanning `[0, len)` with
`word_count = len(transcript.split())` and `is_complete = true`
(lines 38–46). -/
theorem single_segment_passthrough (cfg : ChunkerCfg) (t : List Char)
    (pc : Bool) (h : t.length ≤ cfg.max_chunk_size) :
    chunk_transcript cfg t pc =
      some [{ chunk_id := 1, text := t, start_char := 0, end_char := (t.length : Int),
              word_count := (pySplit t).length, is_complete := true }] := by
  have hbody : chunkTranscriptBody cfg t pc = some [singlePassChunk t] := by
    unfold chunkTranscriptBody
    rw [if_pos h]
  show ((chunkTranscriptBody cfg t pc).map Except.ok).map (handleChunkError t) =
    some [{ chunk_id := 1, text := t, start_char := 0, end_char := (t.length : Int),
            word_count := (pySplit t).length, is_complete := true }]
  rw [hbody]
  rfl

/-- Witness for C8 at the empty transcript: one segment, empty text,
word count 0, `is_complete = true`. -/
theorem single_segment_passthrough_witness :
    (strL "").length ≤ (ChunkerCfg.mk 5 2).max_chunk_size ∧
    chunk_transcript (ChunkerCfg.mk 5 2) (strL "") true =
      some [{ chunk_id := 1, text := [], start_char := 0, end_char := 0,
              word_count := 0, is_complete := true }] :=
  ⟨by decide, single_segment_passthrough (ChunkerCfg.mk 5 2) (strL "") true (by decide)⟩

/-- The last `[.!?]\s+` match end found by the scanner is at least 2: a match
end is only ever recorded while consuming the whitespace run of a match, whose
punctuation character sits at an earlier position. -/
theorem lastSentEndAux_two_le : ∀ (l : List Char) (pos : Nat) (best : Option Nat)
    (sk : Bool), (∀ b, best = some b → 2 ≤ b) → (sk = true → 1 ≤ pos) →
    ∀ e, lastSentEndAux pos best sk l = some e → 2 ≤ e := by
  intro l
  induction l with
  | nil =>
    intro pos best sk hbest _ e he
    exact hbest e he
  | cons c rest ih =>
    intro pos best sk hbest hsk e he
    simp only [lastSentEndAux] at he
    by_cases h1 : (sk && isPySpace c) = true
    · rw [if_pos h1] at he
      have hpos : 1 ≤ pos := hsk (Bool.and_elim_left h1)
      refine ih (pos + 1) (some (pos + 1)) true ?_ (fun _ => by omega) e he
      intro b hb
      cases hb
      omega
    · rw [if_neg h1] at he
      by_cases h2 : (isSentPunct c && firstIsSpace rest) = true
      · rw [if_pos h2] at he
        exact ih (pos + 1) best true hbest (fun _ => by omega) e he
      · rw [if_neg h2] at he
        exact ih (pos + 1) best false hbest (fun h => by cases h) e he

/-- With `max_chunk_size > 0`, every iteration of `_chunk_simple` strictly
advances the cut position. -/
theorem simpleEndPos_gt (maxSize : Nat) (t : List Char) (pos : Nat)
    (hmax : 0 < maxSize) (hpos : pos < t.length) :
    pos < simpleEndPos maxSize t pos := by
  unfold simpleEndPos
  by_cases h : min (pos + maxSize) t.length < t.length
  · rw [if_pos h]
    split
    · rename_i e hm
      have he : 2 ≤ e := lastSentEndAux_two_le _ 0 none false
        (fun b hb => by cases hb) (fun hh => by cases hh) e hm
      have hge : pos ≤ max (min (pos + maxSize) t.length - 200) pos := Nat.le_max_right _ _
      omega
    · omega
  · rw [if_neg h]
    omega

/-- With `max_chunk_size > 0` the `while` loop of `_chunk_simple` terminates
on every input (`n` bounds the remaining length). -/
theorem chunkSimpleLoop_total (maxSize : Nat) (t : List Char) (hmax : 0 < maxSize) :
    ∀ (n pos : Nat), t.length - pos ≤ n →
      ∃ cs : List RawChunk, chunkSimpleLoop maxSize t pos = some cs := by
  intro n
  induction n with
  | zero =>
    intro pos hn
    rw [chunkSimpleLoop]
    rw [dif_neg (by omega)]
    exact ⟨[], rfl⟩
  | succ n ih =>
    intro pos hn
    rw [chunkSimpleLoop]
    by_cases hp : pos < t.length
    · rw [dif_pos hp]
      have hgt := simpleEndPos_gt maxSize t pos hmax hp
      rw [dif_neg (by omega)]
      obtain ⟨tail, htail⟩ := ih (simpleEndPos maxSize t pos) (by omega)
      rw [htail]
      by_cases hct :
          pyStrip ((t.drop pos).take (simpleEndPos maxSize t pos - pos)) = []
      · exact ⟨tail, by simp only [hct, if_pos]⟩
      · refine ⟨{ text := pyStrip ((t.drop pos).take (simpleEndPos maxSize t pos - pos)),
                  start_char := (pos : Int),
                  end_char := (simpleEndPos maxSize t pos : Int),
                  is_complete := simpleEndPos maxSize t pos = t.length } :: tail, ?_⟩
        simp only [hct]
        rfl
    · rw [dif_neg hp]
      exact ⟨[], rfl⟩

/-- **C9.** Under the spec's contract `max_chunk_size > 0`,
`ContentChunker.chunk_transcript` never raises to its caller:
it is exactly the `try/except` wrapper `handleChunkError` mapped over the
fallible body; the handler converts any error into the single fallback
segment carrying the original transcript tagged with the error; wherever the
body terminates it terminates without an uncaught exception (`Except.ok`);
and with `max_chunk_size > 0` the call terminates on every input (so the
caller always receives a chunk list, never an exception). -/
theorem chunker_error_containment (cfg : ChunkerCfg) (t : List Char) (pc : Bool)
    (hmax : 0 < cfg.max_chunk_size) :
    chunk_transcript cfg t pc = (chunkTranscriptE cfg t pc).map (handleChunkError t) ∧
    (∀ e : List Char, handleChunkError t (Except.error e) =
      [{ chunk_id := 1, text := t, start_char := 0, end_char := (t.length : Int),
         word_count := (pySplit t).length, is_complete := true, error := some e }]) ∧
    (∀ r : Except (List Char) (List OutChunk), chunkTranscriptE cfg t pc = some r →
      ∃ cs : List OutChunk, r = Except.ok cs) ∧
    (∃ cs : List OutChunk, chunk_transcript cfg t pc = some cs) := by
  have hbody : ∃ cs : List OutChunk, chunkTranscriptBody cfg t pc = some cs := by
    unfold chunkTranscriptBody
    by_cases hle : t.length ≤ cfg.max_chunk_size
    · rw [if_pos hle]
      exact ⟨_, rfl⟩
    · rw [if_neg hle]
      cases pc with
      | true => exact ⟨_, rfl⟩
      | false =>
        obtain ⟨cs, hcs⟩ :=
          chunkSimpleLoop_total cfg.max_chunk_size t hmax t.length 0 (by omega)
        have hcs' : chunk_simple cfg t = some cs := hcs
        rw [if_neg (by simp), hcs']
        exact ⟨_, rfl⟩
  obtain ⟨cs, hcs⟩ := hbody
  refine ⟨rfl, fun _ => rfl, ?_, ?_⟩
  · intro r hr
    unfold chunkTranscriptE at hr
    rw [hcs] at hr
    exact ⟨cs, by injection hr with h; rw [← h]⟩
  · exact ⟨handleChunkError t (Except.ok cs), by
      simp [chunk_transcript, chunkTranscriptE, hcs]⟩

/-- Witness for C9 at a concrete configuration and transcript (the
sliding-window path included, `preserve_context = false`). -/
theorem chunker_error_containment_witness :
    0 < (ChunkerCfg.mk 8 5).max_chunk_size ∧
    (chunk_transcript (ChunkerCfg.mk 8 5) (strL "Hi Bob\n\nBye now") false =
        (chunkTranscriptE (ChunkerCfg.mk 8 5) (strL "Hi Bob\n\nBye now") false).map
          (handleChunkError (strL "Hi Bob\n\nBye now")) ∧
      (∀ e : List Char, handleChunkError (strL "Hi Bob\n\nBye now") (Except.error e) =
        [{ chunk_id := 1, text := strL "Hi Bob\n\nBye now", start_char := 0,
           end_char := ((strL "Hi Bob\n\nBye now").length : Int),
           word_count := (pySplit (strL "Hi Bob\n\nBye now")).length,
           is_complete := true, error := some e }]) ∧
      (∀ r : Except (List Char) (List OutChunk),
        chunkTranscriptE (ChunkerCfg.mk 8 5) (strL "Hi Bob\n\nBye now") false = some r →
          ∃ cs : List OutChunk, r = Except.ok cs) ∧
      (∃ cs : List OutChunk,
        chunk_transcript (ChunkerCfg.mk 8 5) (strL "Hi Bob\n\nBye now") false = some cs)) :=
  ⟨by decide, chunker_error_containment (ChunkerCfg.mk 8 5) (strL "Hi Bob\n\nBye now")
    false (by decide)⟩

/-- **C1, counterexample.** For `transcript = "Way! No go"` and
`max_chunk_size = 8` the produced core texts are `"Way. "` and `"No go"`:
their concatenation differs from the transcript in a non-whitespace
character (`'!'` was rewritten to `'.'`), so it does not reproduce the
transcript's content up to whitespace normalization alone. -/
theorem chunk_coverage_counterexample :
    (coreSegments (ChunkerCfg.mk 8 0) (strL "Way! No go")).map RawChunk.text =
      [strL "Way. ", strL "No go"] ∧
    noWsChars (concatText (coreSegments (ChunkerCfg.mk 8 0) (strL "Way! No go"))) ≠
      noWsChars (strL "Way! No go") :=
  ⟨by decide, by decide⟩

/-- **C7.** For two or more chunk analyses, the merged record's confidence
score is the arithmetic mean of exactly the strictly positive per-chunk
scores, and `0` when no score is positive (lines 339–366). -/
theorem merge_confidence_mean (cs : List ChunkAnalysis) (h : 2 ≤ cs.length) :
    ∃ r : Analysis, merge_chunk_analyses cs = MergeResult.record r ∧
      r.confidence_score =
        (let pos := (cs.map (fun c => c.analysis.confidence_score)).filter (fun q => 0 < q)
         if pos = [] then 0 else pos.sum / (pos.length : ℚ)) := by
  match cs, h with
  | c1 :: c2 :: rest, _ => exact ⟨_, rfl, rfl⟩

/-- Witness for C7: two chunks with scores `1/2` and `0`; the merged score is
the mean of the positive ones, `1/2`. -/
theorem merge_confidence_mean_witness :
    2 ≤ ([ChunkAnalysis.mk { confidence_score := 1/2 },
          ChunkAnalysis.mk { confidence_score := 0 }] : List ChunkAnalysis).length ∧
    ∃ r : Analysis,
      merge_chunk_analyses
          [ChunkAnalysis.mk { confidence_score := 1/2 },
           ChunkAnalysis.mk { confidence_score := 0 }] = MergeResult.record r ∧
      r.confidence_score =
        (let pos := (([ChunkAnalysis.mk { confidence_score := 1/2 },
                       ChunkAnalysis.mk { confidence_score := 0 }] :
              List ChunkAnalysis).map (fun c => c.analysis.confidence_score)).filter
            (fun q => 0 < q)
         if pos = [] then 0 else pos.sum / (pos.length : ℚ)) :=
  ⟨by decide, merge_confidence_mean _ (by decide)⟩

/-- **C6, counterexample.** For `transcript = "Hi Bob\n\nBye now"`,
`max_chunk_size = 8`, `overlap_size = 5`, the second produced segment has the
5 injected trailing characters `"i Bob"` of the previous segment plus the
marker prepended, `overlap_size = 5` recorded, and offsets `[1, 13)` — but
`end_char - start_char = 12`, which is not the length `7` of its non-injected
content `"Bye now"`: the claimed offset-bookkeeping identity fails. -/
theorem overlap_offset_counterexample :
    (chunk_with_context_preservation (ChunkerCfg.mk 8 5)
        (strL "Hi Bob\n\nBye now")).get? 1 =
      some { text := strL "i Bob\n\n[... continuing ...]\n\nBye now",
             start_char := 1, end_char := 13, is_complete := true,
             has_overlap := true, overlap_size := some 5 } ∧
    ¬ ((13 : Int) - 1 = ((strL "Bye now").length : Int)) :=
  ⟨by decide, by decide⟩

/-!
## Lemmas about words, stripping and the duplicate test
-/

theorem wordsAux_all_ws (w : List Char) (hw : ∀ c ∈ w, isPySpace c = true) :
    ∀ cur, wordsAux cur w = if cur = [] then [] else [cur.reverse] := by
  induction w with
  | nil => intro cur; rfl
  | cons c w' ih =>
    intro cur
    have hc : isPySpace c = true := hw c (List.mem_cons_self c w')
    have hw' : ∀ d ∈ w', isPySpace d = true := fun d hd => hw d (List.mem_cons_of_mem c hd)
    by_cases hcur : cur = []
    · simp [wordsAux, hc, hcur, ih hw']
    · simp [wordsAux, hc, hcur, ih hw']

theorem wordsAux_append_ws (w : List Char) (hw : ∀ c ∈ w, isPySpace c = true) :
    ∀ (l : List Char) (cur : List Char), wordsAux cur (l ++ w) = wordsAux cur l := by
  intro l
  induction l with
  | nil =>
    intro cur
    rw [List.nil_append, wordsAux_all_ws w hw cur]
    cases cur <;> simp [wordsAux]
  | cons c l' ih =>
    intro cur
    by_cases hc : isPySpace c = true
    · by_cases hcur : cur = [] <;> simp [wordsAux, hc, hcur, ih]
    · simp [wordsAux, hc, ih]

theorem dropTrailingWs_decomp (l : List Char) :
    l = dropTrailingWs l ++ (l.reverse.takeWhile isPySpace).reverse := by
  unfold dropTrailingWs
  conv_lhs => rw [← l.reverse_reverse, ← List.takeWhile_append_dropWhile (p := isPySpace) (l := l.reverse)]
  rw [List.reverse_append]

theorem wordsAux_dropWhile_ws (l : List Char) :
    wordsAux [] (l.dropWhile isPySpace) = wordsAux [] l := by
  induction l with
  | nil => rfl
  | cons c l' ih =>
    by_cases hc : isPySpace c = true
    · simp [List.dropWhile, hc, wordsAux, ih]
    · simp [List.dropWhile, hc]

/-- Stripping does not change the word list. -/
theorem pySplit_strip (l : List Char) : pySplit (pyStrip l) = pySplit l := by
  unfold pySplit pyStrip
  have h1 : wordsAux [] (l.dropWhile isPySpace) = wordsAux [] l := wordsAux_dropWhile_ws l
  set m := l.dropWhile isPySpace with hm
  have h2 : wordsAux [] m = wordsAux [] (dropTrailingWs m) := by
    conv_lhs => rw [dropTrailingWs_decomp m]
    exact wordsAux_append_ws _ (fun c hc => List.mem_takeWhile_imp (List.mem_reverse.mp hc)) _ []
  rw [← h2, h1]

/-- Stripping does not change the word set. -/
theorem wordFinset_strip (l : List Char) : wordFinset (pyStrip l) = wordFinset l := by
  unfold wordFinset
  rw [pySplit_strip]

/-- The guarded similarity test of the source agrees with the spec's bare
ratio comparison: when either word set is empty the ratio is `0 ≤ 4/5`, so the
emptiness guard changes nothing. -/
theorem isDupPair_spec (a b : List Char) :
    isDupPair (pyStrip (pyLower a)) (pyStrip (pyLower b)) = specNearDup a b := by
  unfold isDupPair specNearDup
  rw [wordFinset_strip, wordFinset_strip]
  set w1 := wordFinset (pyLower a) with hw1
  set w2 := wordFinset (pyLower b) with hw2
  by_cases h1 : 0 < w1.card <;> by_cases h2 : 0 < w2.card
  · simp [h1, h2]
  · have hb : w2 = ∅ := Finset.card_eq_zero.mp (by omega)
    simp [h1, h2, hb]
    norm_num
  · have ha : w1 = ∅ := Finset.card_eq_zero.mp (by omega)
    simp [h1, h2, ha]
    norm_num
  · have ha : w1 = ∅ := Finset.card_eq_zero.mp (by omega)
    simp [h1, h2, ha]
    norm_num

theorem dedupScan_eq_specDedup (l : List (List Char)) :
    ∀ (seen kept : List (List Char)),
      (∀ a : List Char, (seen.any fun s => isDupPair (pyStrip (pyLower a)) s) =
        (kept.any fun p => specNearDup a p)) →
      dedupScan seen l = specDedup kept l := by
  induction l with
  | nil => intro seen kept _; rfl
  | cons x rest ih =>
    intro seen kept hinv
    simp only [dedupScan, specDedup]
    rw [hinv x]
    by_cases hdup : (kept.any fun p => specNearDup x p) = true
    · rw [if_pos hdup, if_pos hdup]
      exact ih seen kept hinv
    · rw [if_neg hdup, if_neg hdup]
      refine congrArg (x :: ·) (ih _ _ ?_)
      intro a
      simp only [List.any_cons, List.any_append, List.any_nil, Bool.or_false]
      rw [hinv a, isDupPair_spec a x, Bool.or_comm]

/-- **C3.** The deduplication scan of `_deduplicate_and_rank` behaves exactly
as the spec states: a new candidate is dropped if and only if its lower-cased
word-set overlap ratio (intersection over the larger word-set size) with some
previously accepted candidate exceeds `0.8`, the first-seen candidate of each
near-duplicate group being kept — i.e. the source scan coincides with the
scan defined from the spec's words. -/
theorem dedup_drop_characterization (items : List (List Char)) :
    dedupScan [] items = specDedup [] items :=
  dedupScan_eq_specDedup items [] [] (fun _ => rfl)

/-!
## Idempotence of the Deduplicator/Ranker (claim C4)
-/

/-- The lowered+stripped comparison key under which the scan remembers
accepted items (`item.lower().strip()`). -/
def dedupKey (x : List Char) : List Char := pyStrip (pyLower x)

theorem isDupPair_comm (x y : List Char) : isDupPair x y = isDupPair y x := by
  simp only [isDupPair]
  rw [Finset.inter_comm, sup_comm, Bool.and_comm]

/-- Every survivor of the scan is non-duplicate with everything in `seen`. -/
theorem mem_dedupScan_not_dup : ∀ (l seen : List (List Char)) (x : List Char),
    x ∈ dedupScan seen l → ∀ s ∈ seen, isDupPair (dedupKey x) s = false := by
  intro l
  induction l with
  | nil => intro seen x hx; simp [dedupScan] at hx
  | cons i rest ih =>
    intro seen x hx s hs
    simp only [dedupScan] at hx
    by_cases hc : (seen.any fun s => isDupPair (pyStrip (pyLower i)) s) = true
    · rw [if_pos hc] at hx
      exact ih seen x hx s hs
    · rw [if_neg hc] at hx
      rcases List.mem_cons.mp hx with rfl | hxr
      · have hfalse : (seen.any fun s => isDupPair (pyStrip (pyLower x)) s) = false :=
          Bool.eq_false_iff.mpr hc
        have hall := List.any_eq_false.mp hfalse s hs
        unfold dedupKey
        exact Bool.eq_false_iff.mpr hall
      · exact ih _ x hxr s (List.mem_cons_of_mem _ hs)

/-- The survivors of the scan are pairwise non-duplicate (each later survivor
fails the similarity test against each earlier one). -/
theorem dedupScan_pairwise : ∀ (l seen : List (List Char)),
    (dedupScan seen l).Pairwise
      (fun a b => isDupPair (dedupKey b) (dedupKey a) = false) := by
  intro l
  induction l with
  | nil => intro seen; simp [dedupScan]
  | cons i rest ih =>
    intro seen
    simp only [dedupScan]
    by_cases hc : (seen.any fun s => isDupPair (pyStrip (pyLower i)) s) = true
    · rw [if_pos hc]; exact ih seen
    · rw [if_neg hc]
      refine List.Pairwise.cons ?_ (ih _)
      intro b hb
      exact mem_dedupScan_not_dup rest _ b hb (pyStrip (pyLower i))
        (List.mem_cons_self _ _)

/-- On a pairwise non-duplicate list whose members are also non-duplicate with
everything in `seen`, the scan keeps every element. -/
theorem dedupScan_of_pairwise : ∀ (l seen : List (List Char)),
    (∀ x ∈ l, (seen.any fun s => isDupPair (dedupKey x) s) = false) →
    l.Pairwise (fun a b => isDupPair (dedupKey b) (dedupKey a) = false) →
    dedupScan seen l = l := by
  intro l
  induction l with
  | nil => intro seen _ _; rfl
  | cons i rest ih =>
    intro seen hseen hpw
    simp only [dedupScan]
    have hi : (seen.any fun s => isDupPair (pyStrip (pyLower i)) s) = false := by
      simpa [dedupKey] using hseen i (List.mem_cons_self _ _)
    rw [if_neg (by simp [hi])]
    refine congrArg (i :: ·) (ih _ ?_ hpw.tail)
    intro x hx
    simp only [List.any_cons, Bool.or_eq_false_iff]
    refine ⟨?_, hseen x (List.mem_cons_of_mem _ hx)⟩
    exact (List.pairwise_cons.mp hpw).1 x hx

instance : IsTotal (List Char) rankGe :=
  ⟨by
    intro a b
    unfold rankGe keyLt
    omega⟩

instance : IsTrans (List Char) rankGe :=
  ⟨by
    intro a b c
    unfold rankGe keyLt
    omega⟩

theorem symm_not_dup :
    Symmetric (fun a b : List Char => isDupPair (dedupKey b) (dedupKey a) = false) := by
  intro a b h
  rw [isDupPair_comm]
  exact h

/-- Unfolding of `_deduplicate_and_rank` on a nonempty input. -/
theorem dedup_rank_ne_nil_eq (xs : List (List Char)) (k : Nat) (h : xs ≠ []) :
    deduplicate_and_rank xs k =
      (List.insertionSort rankGe (dedupScan [] xs)).take k := by
  unfold deduplicate_and_rank
  rw [if_neg h]

/-- **C4.** The Deduplicator/Ranker is idempotent: applied to its own output
(with the same `max_items`), `_deduplicate_and_rank` returns that output
unchanged — the survivors are pairwise non-duplicate so the second scan keeps
everything, the list is already sorted by the ranking key so the second stable
sort leaves it in place, and it is already within the cap. -/
theorem dedup_rank_idempotent (items : List (List Char)) (k : Nat) :
    deduplicate_and_rank (deduplicate_and_rank items k) k =
      deduplicate_and_rank items k := by
  by_cases h0 : items = []
  · subst h0; rfl
  · rw [dedup_rank_ne_nil_eq items k h0]
    set u := dedupScan [] items with hu
    set s := List.insertionSort rankGe u with hs
    set out := s.take k with hout
    by_cases h1 : out = []
    · rw [h1]; rfl
    · rw [dedup_rank_ne_nil_eq out k h1]
      have hpw_u : u.Pairwise (fun a b => isDupPair (dedupKey b) (dedupKey a) = false) :=
        dedupScan_pairwise items []
      have hperm : s.Perm u := List.perm_insertionSort rankGe u
      have hpw_s : s.Pairwise (fun a b => isDupPair (dedupKey b) (dedupKey a) = false) :=
        (hperm.pairwise_iff @symm_not_dup).mpr hpw_u
      have hpw_out : out.Pairwise (fun a b => isDupPair (dedupKey b) (dedupKey a) = false) :=
        hpw_s.sublist (List.take_sublist k s)
      have hscan : dedupScan [] out = out :=
        dedupScan_of_pairwise out [] (fun x _ => rfl) hpw_out
      have hsorted_s : s.Sorted rankGe := List.sorted_insertionSort rankGe u
      have hsorted_out : out.Sorted rankGe := hsorted_s.sublist (List.take_sublist k s)
      rw [hscan, hsorted_out.insertionSort_eq]
      exact List.take_of_length_le (by rw [hout, List.length_take]; omega)

/-!
## Size bound (claim C2)
-/

theorem wordsAux_no_space : ∀ (l cur : List Char),
    (∀ c ∈ cur, isPySpace c = false) →
    ∀ w ∈ wordsAux cur l, ∀ c ∈ w, isPySpace c = false := by
  intro l
  induction l with
  | nil =>
    intro cur hcur w hw c hc
    simp only [wordsAux] at hw
    by_cases h : cur = []
    · simp [h] at hw
    · rw [if_neg h] at hw
      rcases List.mem_singleton.mp hw with rfl
      exact hcur c (List.mem_reverse.mp hc)
  | cons a rest ih =>
    intro cur hcur w hw c hc
    simp only [wordsAux] at hw
    by_cases ha : isPySpace a = true
    · rw [if_pos ha] at hw
      by_cases h : cur = []
      · rw [if_pos h] at hw
        exact ih [] (by simp) w hw c hc
      · rw [if_neg h] at hw
        rcases List.mem_cons.mp hw with rfl | hw'
        · exact hcur c (List.mem_reverse.mp hc)
        · exact ih [] (by simp) w hw' c hc
    · rw [if_neg ha] at hw
      refine ih (a :: cur) ?_ w hw c hc
      intro d hd
      rcases List.mem_cons.mp hd with rfl | hd'
      · exact Bool.eq_false_iff.mpr ha
      · exact hcur d hd'

/-- Every word of `text.split()` contains no whitespace. -/
theorem pySplit_no_space (l : List Char) :
    ∀ w ∈ pySplit l, ∀ c ∈ w, isPySpace c = false :=
  wordsAux_no_space l [] (by simp)

theorem splitByWordsLoop_size (maxSize : Nat) : ∀ (ws : List (List Char))
    (cur : List Char) (start : Int),
    (∀ w ∈ ws, ∀ c ∈ w, isPySpace c = false) →
    (cur.length ≤ maxSize ∨ ∀ c ∈ cur, isPySpace c = false) →
    ∀ ch ∈ splitByWordsLoop maxSize ws cur start,
      ch.text.length ≤ maxSize ∨ ∀ c ∈ ch.text, isPySpace c = false := by
  intro ws
  induction ws with
  | nil =>
    intro cur start _ hcur ch hch
    simp only [splitByWordsLoop] at hch
    by_cases h : cur = []
    · simp [h] at hch
    · rw [if_neg h] at hch
      rcases List.mem_singleton.mp hch with rfl
      exact hcur
  | cons w rest ih =>
    intro cur start hws hcur ch hch
    have hw : ∀ c ∈ w, isPySpace c = false := hws w (List.mem_cons_self _ _)
    have hrest : ∀ v ∈ rest, ∀ c ∈ v, isPySpace c = false :=
      fun v hv => hws v (List.mem_cons_of_mem _ hv)
    simp only [splitByWordsLoop] at hch
    by_cases htest : (if cur = [] then w else cur ++ ' ' :: w).length ≤ maxSize
    · rw [if_pos htest] at hch
      exact ih _ start hrest (Or.inl htest) ch hch
    · rw [if_neg htest] at hch
      by_cases h : cur = []
      · rw [if_pos h] at hch
        exact ih _ start hrest (Or.inr hw) ch hch
      · rw [if_neg h] at hch
        rcases List.mem_cons.mp hch with rfl | hch'
        · exact hcur
        · exact ih _ _ hrest (Or.inr hw) ch hch'

theorem splitLargeParagraphLoop_size (maxSize : Nat) : ∀ (sents : List (List Char))
    (cur : List Char) (start : Int),
    cur.length ≤ maxSize →
    ∀ ch ∈ splitLargeParagraphLoop maxSize sents cur start,
      ch.text.length ≤ maxSize ∨ ∀ c ∈ ch.text, isPySpace c = false := by
  intro sents
  induction sents with
  | nil =>
    intro cur start hcur ch hch
    simp only [splitLargeParagraphLoop] at hch
    by_cases h : cur = []
    · simp [h] at hch
    · rw [if_neg h] at hch
      rcases List.mem_singleton.mp hch with rfl
      exact Or.inl hcur
  | cons s0 rest ih =>
    intro cur start hcur ch hch
    simp only [splitLargeParagraphLoop] at hch
    by_cases hempty : pyStrip s0 = []
    · rw [if_pos hempty] at hch
      exact ih cur start hcur ch hch
    · rw [if_neg hempty] at hch
      set s := if rest = [] then pyStrip s0 else pyStrip s0 ++ ('.' :: ' ' :: []) with hsdef
      by_cases htest : (cur ++ s).length ≤ maxSize
      · rw [if_pos htest] at hch
        exact ih _ start htest ch hch
      · rw [if_neg htest] at hch
        by_cases hbig : maxSize < s.length
        · rw [if_pos hbig] at hch
          rcases List.mem_append.mp hch with hch1 | hch2
          · rcases List.mem_append.mp hch1 with hfl | hwc
            · by_cases h : cur = []
              · simp [h] at hfl
              · rw [if_neg h] at hfl
                rcases List.mem_singleton.mp hfl with rfl
                exact Or.inl hcur
            · exact splitByWordsLoop_size maxSize (pySplit s) [] _
                (pySplit_no_space s) (Or.inl (by simp)) ch hwc
          · exact ih [] _ (by simp) ch hch2
        · rw [if_neg hbig] at hch
          rcases List.mem_append.mp hch with hfl | hch1
          · by_cases h : cur = []
            · simp [h] at hfl
            · rw [if_neg h] at hfl
              rcases List.mem_singleton.mp hfl with rfl
              exact Or.inl hcur
          · exact ih _ _ (by omega) ch hch1

theorem chunkWithContextLoop_size (maxSize : Nat) : ∀ (paras : List (List Char))
    (cur : List Char) (start : Int),
    cur.length ≤ maxSize →
    ∀ ch ∈ chunkWithContextLoop maxSize paras cur start,
      ch.text.length ≤ maxSize ∨ ∀ c ∈ ch.text, isPySpace c = false := by
  intro paras
  induction paras with
  | nil =>
    intro cur start hcur ch hch
    simp only [chunkWithContextLoop] at hch
    by_cases h : cur = []
    · simp [h] at hch
    · rw [if_neg h] at hch
      rcases List.mem_singleton.mp hch with rfl
      exact Or.inl hcur
  | cons p0 rest ih =>
    intro cur start hcur ch hch
    simp only [chunkWithContextLoop] at hch
    by_cases hempty : pyStrip p0 = []
    · rw [if_pos hempty] at hch
      exact ih cur start hcur ch hch
    · rw [if_neg hempty] at hch
      set p := pyStrip p0 with hpdef
      by_cases htest : (if cur = [] then p else cur ++ ('\n' :: '\n' :: p)).length ≤ maxSize
      · rw [if_pos htest] at hch
        exact ih _ start htest ch hch
      · rw [if_neg htest] at hch
        by_cases hbig : maxSize < p.length
        · rw [if_pos hbig] at hch
          rcases List.mem_append.mp hch with hch1 | hch2
          · rcases List.mem_append.mp hch1 with hfl | hsc
            · by_cases h : cur = []
              · simp [h] at hfl
              · rw [if_neg h] at hfl
                rcases List.mem_singleton.mp hfl with rfl
                exact Or.inl hcur
            · exact splitLargeParagraphLoop_size maxSize (sentSplit p) [] _
                (by simp) ch hsc
          · exact ih [] _ (by simp) ch hch2
        · rw [if_neg hbig] at hch
          rcases List.mem_append.mp hch with hfl | hch1
          · by_cases h : cur = []
            · simp [h] at hfl
            · rw [if_neg h] at hfl
              rcases List.mem_singleton.mp hfl with rfl
              exact Or.inl hcur
          · exact ih _ _ (by omega) ch hch1

/-- **C2.** Every core segment produced by the chunker either respects the
size bound or consists of a single whitespace-free word (which is then an
unsplittable word longer than the limit). -/
theorem size_bound (cfg : ChunkerCfg) (t : List Char)
    (hmax : 0 < cfg.max_chunk_size) :
    ∀ ch ∈ coreSegments cfg t,
      ch.text.length ≤ cfg.max_chunk_size ∨ ∀ c ∈ ch.text, isPySpace c = false := by
  intro ch hch
  unfold coreSegments at hch
  by_cases hle : t.length ≤ cfg.max_chunk_size
  · rw [if_pos hle] at hch
    rcases List.mem_singleton.mp hch with rfl
    exact Or.inl hle
  · rw [if_neg hle] at hch
    exact chunkWithContextLoop_size cfg.max_chunk_size (paraSplit t) [] 0
      (by simp) ch hch

/-- Witness for C2 on a concrete transcript whose oversized paragraph forces
sentence and word splitting. -/
theorem size_bound_witness :
    0 < (ChunkerCfg.mk 4 0).max_chunk_size ∧
    ∀ ch ∈ coreSegments (ChunkerCfg.mk 4 0) (strL "unsplittable w! x"),
      ch.text.length ≤ (ChunkerCfg.mk 4 0).max_chunk_size ∨
        ∀ c ∈ ch.text, isPySpace c = false :=
  ⟨by decide, size_bound (ChunkerCfg.mk 4 0) (strL "unsplittable w! x") (by decide)⟩

/-!
## Content preservation up to whitespace and sentence punctuation (claim C1)
-/

theorem sig_nil : sigChars [] = [] := rfl

theorem sig_cons_ws {c : Char} (h : isPySpace c = true) (l : List Char) :
    sigChars (c :: l) = sigChars l := by
  simp [sigChars, List.filter_cons, h]

theorem sig_cons_punct {c : Char} (h : isSentPunct c = true) (l : List Char) :
    sigChars (c :: l) = sigChars l := by
  simp [sigChars, List.filter_cons, h]

theorem sig_cons_keep {c : Char} (h1 : isPySpace c = false)
    (h2 : isSentPunct c = false) (l : List Char) :
    sigChars (c :: l) = c :: sigChars l := by
  simp [sigChars, List.filter_cons, h1, h2]

theorem sig_append (a b : List Char) :
    sigChars (a ++ b) = sigChars a ++ sigChars b := by
  simp [sigChars, List.filter_append]

theorem sig_reverse (l : List Char) : sigChars l.reverse = (sigChars l).reverse := by
  simp [sigChars, List.filter_reverse]

theorem sig_all_ws {l : List Char} (h : ∀ c ∈ l, isPySpace c = true) :
    sigChars l = [] := by
  induction l with
  | nil => rfl
  | cons c rest ih =>
    rw [sig_cons_ws (h c (List.mem_cons_self _ _))]
    exact ih (fun d hd => h d (List.mem_cons_of_mem _ hd))

theorem sig_dropWhile_ws (l : List Char) :
    sigChars (l.dropWhile isPySpace) = sigChars l := by
  conv_rhs => rw [← List.takeWhile_append_dropWhile (p := isPySpace) (l := l)]
  rw [sig_append, sig_all_ws (fun c hc => List.mem_takeWhile_imp hc), List.nil_append]

theorem sig_strip (l : List Char) : sigChars (pyStrip l) = sigChars l := by
  unfold pyStrip
  rw [← sig_dropWhile_ws l]
  set m := l.dropWhile isPySpace
  conv_rhs => rw [dropTrailingWs_decomp m]
  rw [sig_append, sig_all_ws (l := (m.reverse.takeWhile isPySpace).reverse)
    (fun c hc => List.mem_takeWhile_imp (List.mem_reverse.mp hc)), List.append_nil]

/-- If a strip comes out empty, the text was all whitespace. -/
theorem sig_of_strip_empty {l : List Char} (h : pyStrip l = []) : sigChars l = [] := by
  rw [← sig_strip l, h, sig_nil]

theorem wordsAux_sig : ∀ (l cur : List Char),
    ((wordsAux cur l).map sigChars).flatten = (sigChars cur).reverse ++ sigChars l := by
  intro l
  induction l with
  | nil =>
    intro cur
    by_cases h : cur = []
    · simp [wordsAux, h, sig_nil]
    · simp [wordsAux, h, sig_reverse, sig_nil]
  | cons c rest ih =>
    intro cur
    simp only [wordsAux]
    by_cases hc : isPySpace c = true
    · rw [if_pos hc, sig_cons_ws hc]
      by_cases h : cur = []
      · subst h
        rw [if_pos rfl, ih []]
      · rw [if_neg h]
        simp only [List.map_cons, List.flatten_cons]
        rw [ih [], sig_reverse]
        simp [sig_nil]
    · rw [if_neg hc]
      rw [ih (c :: cur)]
      have hc' : isPySpace c = false := Bool.eq_false_iff.mpr hc
      by_cases hp : isSentPunct c = true
      · rw [sig_cons_punct hp, sig_cons_punct hp]
      · have hp' : isSentPunct c = false := Bool.eq_false_iff.mpr hp
        rw [sig_cons_keep hc' hp', sig_cons_keep hc' hp']
        simp

theorem pySplit_sig (l : List Char) :
    ((pySplit l).map sigChars).flatten = sigChars l := by
  unfold pySplit
  rw [wordsAux_sig l []]
  rfl

theorem sentSplitAux_sig : ∀ (l : List Char) (sk : Bool) (acc : List Char),
    (sk = true → acc = []) →
    ((sentSplitAux sk acc l).map sigChars).flatten =
      (sigChars acc).reverse ++ sigChars l := by
  intro l
  induction l with
  | nil =>
    intro sk acc _
    simp [sentSplitAux, sig_reverse, sig_nil]
  | cons c rest ih =>
    intro sk acc hsk
    simp only [sentSplitAux]
    by_cases h1 : (sk && isPySpace c) = true
    · obtain ⟨hskT, hws⟩ : sk = true ∧ isPySpace c = true := by
        constructor
        · exact Bool.and_elim_left h1
        · exact Bool.and_elim_right h1
      have hacc : acc = [] := hsk hskT
      subst hacc
      rw [if_pos h1, ih true [] (fun _ => rfl), sig_cons_ws hws]
    · rw [if_neg h1]
      by_cases h2 : (isSentPunct c && firstIsSpace rest) = true
      · have hp : isSentPunct c = true := Bool.and_elim_left h2
        rw [if_pos h2]
        simp only [List.map_cons, List.flatten_cons]
        rw [ih true [] (fun _ => rfl), sig_reverse, sig_cons_punct hp]
        simp [sig_nil]
      · rw [if_neg h2, ih false (c :: acc) (fun h => by cases h)]
        by_cases hws : isPySpace c = true
        · rw [sig_cons_ws hws, sig_cons_ws hws]
        · have hws' : isPySpace c = false := Bool.eq_false_iff.mpr hws
          by_cases hp : isSentPunct c = true
          · rw [sig_cons_punct hp, sig_cons_punct hp]
          · have hp' : isSentPunct c = false := Bool.eq_false_iff.mpr hp
            rw [sig_cons_keep hws' hp', sig_cons_keep hws' hp']
            simp

theorem sentSplit_sig (l : List Char) :
    ((sentSplit l).map sigChars).flatten = sigChars l := by
  unfold sentSplit
  rw [sentSplitAux_sig l false [] (fun h => by cases h)]
  rfl

theorem paraSplitAux_sig : ∀ (l : List Char) (pend : Option (List Char)) (acc : List Char),
    (∀ p, pend = some p → ∀ c ∈ p, isPySpace c = true) →
    ((paraSplitAux pend acc l).map sigChars).flatten =
      (sigChars acc).reverse ++ sigChars l := by
  intro l
  induction l with
  | nil =>
    intro pend acc hinv
    match pend with
    | none => simp [paraSplitAux, sig_reverse, sig_nil]
    | some p =>
      have hp : ∀ c ∈ p, isPySpace c = true := hinv p rfl
      simp only [paraSplitAux]
      by_cases h2 : 2 ≤ p.count '\n'
      · rw [if_pos h2]
        have htw : ∀ q : Char → Bool, sigChars (p.takeWhile q) = [] := fun q =>
          sig_all_ws (fun c hc => hp c ((List.takeWhile_sublist q).subset hc))
        simp [sig_reverse, sig_nil, htw]
      · rw [if_neg h2]
        simp [sig_reverse, sig_append, sig_all_ws hp, sig_nil]
  | cons c rest ih =>
    intro pend acc hinv
    match pend with
    | none =>
      simp only [paraSplitAux]
      by_cases hnl : c = '\n'
      · rw [if_pos hnl, ih (some ['\n']) acc (by intro p hp; cases hp; simp [isPySpace])]
        subst hnl
        rw [sig_cons_ws (by decide)]
      · rw [if_neg hnl, ih none (c :: acc) (by intro p hp; cases hp)]
        by_cases hws : isPySpace c = true
        · rw [sig_cons_ws hws, sig_cons_ws hws]
        · have hws' : isPySpace c = false := Bool.eq_false_iff.mpr hws
          by_cases hpt : isSentPunct c = true
          · rw [sig_cons_punct hpt, sig_cons_punct hpt]
          · have hpt' : isSentPunct c = false := Bool.eq_false_iff.mpr hpt
            rw [sig_cons_keep hws' hpt', sig_cons_keep hws' hpt']
            simp
    | some p =>
      have hp : ∀ d ∈ p, isPySpace d = true := hinv p rfl
      simp only [paraSplitAux]
      by_cases hws : isPySpace c = true
      · rw [if_pos hws]
        rw [ih (some (c :: p)) acc ?hinv2, sig_cons_ws hws]
        case hinv2 =>
          intro q hq
          cases hq
          intro d hd
          rcases List.mem_cons.mp hd with rfl | hd'
          · exact hws
          · exact hp d hd'
      · rw [if_neg hws]
        have hws' : isPySpace c = false := Bool.eq_false_iff.mpr hws
        have htw0 : ∀ q : Char → Bool, sigChars (p.takeWhile q) = [] := fun q =>
          sig_all_ws (fun d hd => hp d ((List.takeWhile_sublist q).subset hd))
        have hsigp : sigChars p = [] := sig_all_ws hp
        by_cases h2 : 2 ≤ p.count '\n'
        · rw [if_pos h2]
          simp only [List.map_cons, List.flatten_cons]
          rw [ih none (c :: p.takeWhile (fun d => d ≠ '\n')) (by intro q hq; cases hq)]
          rw [sig_reverse]
          by_cases hpt : isSentPunct c = true
          · rw [sig_cons_punct hpt, sig_cons_punct hpt, htw0]
            simp
          · have hpt' : isSentPunct c = false := Bool.eq_false_iff.mpr hpt
            rw [sig_cons_keep hws' hpt', sig_cons_keep hws' hpt', htw0]
            simp
        · rw [if_neg h2]
          rw [ih none (c :: (p ++ acc)) (by intro q hq; cases hq)]
          by_cases hpt : isSentPunct c = true
          · rw [sig_cons_punct hpt, sig_cons_punct hpt, sig_append, hsigp]
            simp
          · have hpt' : isSentPunct c = false := Bool.eq_false_iff.mpr hpt
            rw [sig_cons_keep hws' hpt', sig_cons_keep hws' hpt', sig_append, hsigp]
            simp

theorem paraSplit_sig (l : List Char) :
    ((paraSplit l).map sigChars).flatten = sigChars l := by
  unfold paraSplit
  rw [paraSplitAux_sig l none [] (by intro p hp; cases hp)]
  rfl

theorem concatText_nil : concatText [] = [] := rfl

theorem concatText_cons (c : RawChunk) (cs : List RawChunk) :
    concatText (c :: cs) = c.text ++ concatText cs := by
  simp [concatText]

theorem concatText_append (a b : List RawChunk) :
    concatText (a ++ b) = concatText a ++ concatText b := by
  simp [concatText]

theorem splitByWordsLoop_sig (maxSize : Nat) : ∀ (ws : List (List Char))
    (cur : List Char) (start : Int),
    sigChars (concatText (splitByWordsLoop maxSize ws cur start)) =
      sigChars cur ++ (ws.map sigChars).flatten := by
  intro ws
  induction ws with
  | nil =>
    intro cur start
    by_cases h : cur = []
    · simp [splitByWordsLoop, h, concatText_nil, sig_nil]
    · simp [splitByWordsLoop, h, concatText_cons, concatText_nil, mkChunk,
        sig_append, sig_nil]
  | cons w rest ih =>
    intro cur start
    simp only [splitByWordsLoop]
    have hsigtest : sigChars (if cur = [] then w else cur ++ ' ' :: w) =
        sigChars cur ++ sigChars w := by
      by_cases h : cur = []
      · simp [h, sig_nil]
      · rw [if_neg h, sig_append, sig_cons_ws (by decide)]
    by_cases htest : (if cur = [] then w else cur ++ ' ' :: w).length ≤ maxSize
    · rw [if_pos htest, ih _ start, hsigtest]
      simp
    · rw [if_neg htest]
      by_cases h : cur = []
      · rw [if_pos h, ih w start, h]
        simp [sig_nil]
      · rw [if_neg h]
        rw [concatText_cons, sig_append, ih w _]
        simp [mkChunk]

theorem split_by_words_sig (maxSize : Nat) (s : List Char) (start : Int) :
    sigChars (concatText (split_by_words maxSize s start)) = sigChars s := by
  unfold split_by_words
  rw [splitByWordsLoop_sig maxSize (pySplit s) [] start, pySplit_sig]
  rfl

theorem splitLargeParagraphLoop_sig (maxSize : Nat) : ∀ (sents : List (List Char))
    (cur : List Char) (start : Int),
    sigChars (concatText (splitLargeParagraphLoop maxSize sents cur start)) =
      sigChars cur ++ (sents.map sigChars).flatten := by
  intro sents
  induction sents with
  | nil =>
    intro cur start
    by_cases h : cur = []
    · simp [splitLargeParagraphLoop, h, concatText_nil, sig_nil]
    · simp [splitLargeParagraphLoop, h, concatText_cons, concatText_nil, mkChunk,
        sig_append, sig_nil]
  | cons s0 rest ih =>
    intro cur start
    simp only [splitLargeParagraphLoop]
    by_cases hempty : pyStrip s0 = []
    · rw [if_pos hempty, ih cur start]
      simp [sig_of_strip_empty hempty]
    · rw [if_neg hempty]
      have hsigs : sigChars (if rest = [] then pyStrip s0
          else pyStrip s0 ++ ('.' :: ' ' :: [])) = sigChars s0 := by
        by_cases hr : rest = []
        · rw [if_pos hr, sig_strip]
        · rw [if_neg hr, sig_append, sig_strip]
          simp [sig_cons_punct (c := '.') (by decide), sig_cons_ws (c := ' ') (by decide),
            sig_nil]
      set s := if rest = [] then pyStrip s0 else pyStrip s0 ++ ('.' :: ' ' :: []) with hs
      by_cases htest : (cur ++ s).length ≤ maxSize
      · rw [if_pos htest, ih _ start, sig_append, hsigs]
        simp
      · rw [if_neg htest]
        have hflush : ∀ st : Int, sigChars (concatText
            (if cur = [] then [] else [mkChunk cur st false])) = sigChars cur := by
          intro st
          by_cases h : cur = []
          · simp [h, concatText_nil, sig_nil]
          · simp [h, concatText_cons, concatText_nil, mkChunk, sig_append, sig_nil]
        by_cases hbig : maxSize < s.length
        · rw [if_pos hbig]
          rw [concatText_append, concatText_append, sig_append, sig_append,
            hflush, split_by_words_sig, ih [] _, hsigs]
          simp [sig_nil]
        · rw [if_neg hbig]
          rw [concatText_append, sig_append, hflush, ih s _, hsigs]
          simp

theorem split_large_paragraph_sig (maxSize : Nat) (p : List Char) (start : Int) :
    sigChars (concatText (split_large_paragraph maxSize p start)) = sigChars p := by
  unfold split_large_paragraph
  rw [splitLargeParagraphLoop_sig maxSize (sentSplit p) [] start, sentSplit_sig]
  rfl

theorem chunkWithContextLoop_sig (maxSize : Nat) : ∀ (paras : List (List Char))
    (cur : List Char) (start : Int),
    sigChars (concatText (chunkWithContextLoop maxSize paras cur start)) =
      sigChars cur ++ (paras.map sigChars).flatten := by
  intro paras
  induction paras with
  | nil =>
    intro cur start
    by_cases h : cur = []
    · simp [chunkWithContextLoop, h, concatText_nil, sig_nil]
    · simp [chunkWithContextLoop, h, concatText_cons, concatText_nil, mkChunk,
        sig_append, sig_nil]
  | cons p0 rest ih =>
    intro cur start
    simp only [chunkWithContextLoop]
    by_cases hempty : pyStrip p0 = []
    · rw [if_pos hempty, ih cur start]
      simp [sig_of_strip_empty hempty]
    · rw [if_neg hempty]
      have hsigtest : sigChars (if cur = [] then pyStrip p0
          else cur ++ ('\n' :: '\n' :: pyStrip p0)) = sigChars cur ++ sigChars p0 := by
        by_cases h : cur = []
        · simp [h, sig_nil, sig_strip]
        · rw [if_neg h, sig_append, sig_cons_ws (c := '\n') (by decide),
            sig_cons_ws (c := '\n') (by decide), sig_strip]
      by_cases htest : (if cur = [] then pyStrip p0
          else cur ++ ('\n' :: '\n' :: pyStrip p0)).length ≤ maxSize
      · rw [if_pos htest, ih _ start, hsigtest]
        simp
      · rw [if_neg htest]
        have hflush : ∀ st : Int, sigChars (concatText
            (if cur = [] then [] else [mkChunk cur st true])) = sigChars cur := by
          intro st
          by_cases h : cur = []
          · simp [h, concatText_nil, sig_nil]
          · simp [h, concatText_cons, concatText_nil, mkChunk, sig_append, sig_nil]
        by_cases hbig : maxSize < (pyStrip p0).length
        · rw [if_pos hbig]
          rw [concatText_append, concatText_append, sig_append, sig_append,
            hflush, split_large_paragraph_sig, ih [] _, sig_strip]
          simp [sig_nil]
        · rw [if_neg hbig]
          rw [concatText_append, sig_append, hflush, ih _ _, sig_strip]
          simp

theorem chunkWithContextCore_sig (maxSize : Nat) (t : List Char) :
    sigChars (concatText (chunkWithContextCore maxSize t)) = sigChars t := by
  unfold chunkWithContextCore
  rw [chunkWithContextLoop_sig maxSize (paraSplit t) [] 0, paraSplit_sig]
  rfl

/-- **C1 (amended).** Concatenating the core texts of all segments, in order,
reproduces the transcript's content up to whitespace *and sentence-delimiter
punctuation (`.`,`!`,`?`)* normalization: both sides agree after removing
whitespace and these three punctuation characters.  (Plain whitespace
normalization alone is not enough: see `chunk_coverage_counterexample`.) -/
theorem chunk_coverage_amended (cfg : ChunkerCfg) (t : List Char)
    (hmax : 0 < cfg.max_chunk_size) :
    sigChars (concatText (coreSegments cfg t)) = sigChars t := by
  unfold coreSegments
  by_cases hle : t.length ≤ cfg.max_chunk_size
  · rw [if_pos hle, concatText_cons, concatText_nil]
    simp [mkChunk]
  · rw [if_neg hle]
    exact chunkWithContextCore_sig cfg.max_chunk_size t

/-- Witness for the amended C1 on the counterexample transcript itself. -/
theorem chunk_coverage_amended_witness :
    0 < (ChunkerCfg.mk 8 0).max_chunk_size ∧
    sigChars (concatText (coreSegments (ChunkerCfg.mk 8 0) (strL "Way! No go"))) =
      sigChars (strL "Way! No go") :=
  ⟨by decide, chunk_coverage_amended (ChunkerCfg.mk 8 0) (strL "Way! No go") (by decide)⟩

/-!
## Overlap injection (claim C6)
-/

theorem sentSplitAux_piece_length : ∀ (l : List Char) (sk : Bool) (acc : List Char)
    (p : List Char), p ∈ sentSplitAux sk acc l → p.length ≤ acc.length + l.length := by
  intro l
  induction l with
  | nil =>
    intro sk acc p hp
    rcases List.mem_singleton.mp hp with rfl
    simp
  | cons c rest ih =>
    intro sk acc p hp
    simp only [sentSplitAux] at hp
    by_cases h1 : (sk && isPySpace c) = true
    · rw [if_pos h1] at hp
      have := ih true [] p hp
      simp only [List.length_nil, List.length_cons] at this ⊢
      omega
    · rw [if_neg h1] at hp
      by_cases h2 : (isSentPunct c && firstIsSpace rest) = true
      · rw [if_pos h2] at hp
        rcases List.mem_cons.mp hp with rfl | hp'
        · simp only [List.length_reverse, List.length_cons]
          omega
        · have := ih true [] p hp'
          simp only [List.length_nil, List.length_cons] at this ⊢
          omega
      · rw [if_neg h2] at hp
        have := ih false (c :: acc) p hp
        simp only [List.length_cons] at this ⊢
        omega

theorem sentSplitAux_ne_nil : ∀ (l : List Char) (sk : Bool) (acc : List Char),
    sentSplitAux sk acc l ≠ [] := by
  intro l
  induction l with
  | nil => intro sk acc; simp [sentSplitAux]
  | cons c rest ih =>
    intro sk acc
    simp only [sentSplitAux]
    by_cases h1 : (sk && isPySpace c) = true
    · rw [if_pos h1]; exact ih true []
    · rw [if_neg h1]
      by_cases h2 : (isSentPunct c && firstIsSpace rest) = true
      · rw [if_pos h2]; exact List.cons_ne_nil _ _
      · rw [if_neg h2]; exact ih false (c :: acc)

/-- The injected overlap text never exceeds `overlap_size` characters: the
window is at most `overlap_size` long and trimming to the last
partial-sentence piece only shortens it. -/
theorem overlapTextOf_length_le (cfg : ChunkerCfg) (prevText : List Char) :
    (overlapTextOf cfg prevText).length ≤ cfg.overlap_size := by
  simp only [overlapTextOf]
  set win := prevText.drop (prevText.length - cfg.overlap_size) with hwin
  have hwl : win.length ≤ cfg.overlap_size := by
    rw [hwin, List.length_drop]
    omega
  by_cases h : 1 < (sentSplit win).length
  · rw [if_pos h]
    have hne : sentSplit win ≠ [] := sentSplitAux_ne_nil win false []
    have hmem : (sentSplit win).getLastD win ∈ sentSplit win := by
      rw [List.getLastD_eq_getLast?, List.getLast?_eq_getLast _ hne]
      exact List.getLast_mem hne
    have hlen := sentSplitAux_piece_length win false [] _ hmem
    simp only [List.length_nil, Nat.zero_add] at hlen
    omega
  · rw [if_neg h]
    exact hwl

theorem zipWith_get?_eq {α : Type} (f : α → α → α) : ∀ (l1 l2 : List α) (i : Nat)
    (x y : α), l1.get? i = some x → l2.get? i = some y →
    (List.zipWith f l1 l2).get? i = some (f x y) := by
  intro l1
  induction l1 with
  | nil => intro l2 i x y h1 _; simp at h1
  | cons a l1' ih =>
    intro l2 i x y h1 h2
    cases l2 with
    | nil => simp at h2
    | cons b l2' =>
      cases i with
      | zero =>
        simp only [List.get?_cons_zero, Option.some.injEq] at h1 h2
        subst h1; subst h2
        rfl
      | succ n =>
        simp only [List.get?_cons_succ] at h1 h2
        simpa [List.zipWith] using ih l2' n x y h1 h2

/-- **C6 (amended).** With `overlap_size > 0` and at least two chunks, each
chunk after the first is exactly `mkOverlapChunk` of its predecessor and
itself: up to `overlap_size` trailing characters of the previous chunk's text
(trimmed to the last partial-sentence piece) plus the visible continuation
marker are prepended to its text; the injected overlap length is recorded
separately in the `overlap_size` field; and the offsets satisfy
`end_char - start_char` = (non-injected content length) **plus** the injected
overlap length (not the non-injected length alone — see
`overlap_offset_counterexample`). -/
theorem overlap_injection_amended (cfg : ChunkerCfg) (chunks : List RawChunk)
    (i : Nat) (prev cur : RawChunk)
    (hprev : chunks.get? i = some prev) (hcur : chunks.get? (i + 1) = some cur)
    (hov : 0 < cfg.overlap_size)
    (hwf : cur.end_char = cur.start_char + (cur.text.length : Int)) :
    (add_overlap_to_chunks cfg chunks).get? (i + 1) =
        some (mkOverlapChunk cfg prev cur) ∧
    (mkOverlapChunk cfg prev cur).text =
        overlapTextOf cfg prev.text ++ contMarker ++ cur.text ∧
    (overlapTextOf cfg prev.text).length ≤ cfg.overlap_size ∧
    (mkOverlapChunk cfg prev cur).has_overlap = true ∧
    (mkOverlapChunk cfg prev cur).overlap_size =
        some (overlapTextOf cfg prev.text).length ∧
    (mkOverlapChunk cfg prev cur).end_char - (mkOverlapChunk cfg prev cur).start_char =
        (cur.text.length : Int) + ((overlapTextOf cfg prev.text).length : Int) := by
  have hlen : i + 1 < chunks.length := by
    by_contra hc
    rw [List.get?_eq_none.mpr (Nat.le_of_not_lt hc)] at hcur
    cases hcur
  refine ⟨?_, by simp [mkOverlapChunk, contMarker], overlapTextOf_length_le cfg prev.text,
    rfl, rfl, ?_⟩
  · cases chunks with
    | nil => simp at hcur
    | cons c rest =>
      simp only [add_overlap_to_chunks]
      rw [if_neg ?hguard]
      case hguard =>
        simp only [List.length_cons] at hlen ⊢
        simp only [Bool.or_eq_true, decide_eq_true_eq]
        push_neg
        omega
      rw [List.get?_cons_succ]
      exact zipWith_get?_eq (mkOverlapChunk cfg) (c :: rest) rest i prev cur hprev
        (by simpa [List.get?_cons_succ] using hcur)
  · simp only [mkOverlapChunk]
    omega

/-- Witness for the amended C6 on the chunks of the counterexample
transcript. -/
theorem overlap_injection_amended_witness :
    ([mkChunk (strL "Hi Bob") 0 true, mkChunk (strL "Bye now") 6 true].get? 0 =
        some (mkChunk (strL "Hi Bob") 0 true)) ∧
    ([mkChunk (strL "Hi Bob") 0 true, mkChunk (strL "Bye now") 6 true].get? 1 =
        some (mkChunk (strL "Bye now") 6 true)) ∧
    0 < (ChunkerCfg.mk 8 5).overlap_size ∧
    ((mkChunk (strL "Bye now") 6 true).end_char =
      (mkChunk (strL "Bye now") 6 true).start_char +
        ((mkChunk (strL "Bye now") 6 true).text.length : Int)) ∧
    ((add_overlap_to_chunks (ChunkerCfg.mk 8 5)
          [mkChunk (strL "Hi Bob") 0 true, mkChunk (strL "Bye now") 6 true]).get? 1 =
        some (mkOverlapChunk (ChunkerCfg.mk 8 5) (mkChunk (strL "Hi Bob") 0 true)
          (mkChunk (strL "Bye now") 6 true)) ∧
      (mkOverlapChunk (ChunkerCfg.mk 8 5) (mkChunk (strL "Hi Bob") 0 true)
            (mkChunk (strL "Bye now") 6 true)).text =
        overlapTextOf (ChunkerCfg.mk 8 5) (mkChunk (strL "Hi Bob") 0 true).text ++
          contMarker ++ (mkChunk (strL "Bye now") 6 true).text ∧
      (overlapTextOf (ChunkerCfg.mk 8 5) (mkChunk (strL "Hi Bob") 0 true).text).length ≤
        (ChunkerCfg.mk 8 5).overlap_size ∧
      (mkOverlapChunk (ChunkerCfg.mk 8 5) (mkChunk (strL "Hi Bob") 0 true)
          (mkChunk (strL "Bye now") 6 true)).has_overlap = true ∧
      (mkOverlapChunk (ChunkerCfg.mk 8 5) (mkChunk (strL "Hi Bob") 0 true)
          (mkChunk (strL "Bye now") 6 true)).overlap_size =
        some (overlapTextOf (ChunkerCfg.mk 8 5)
          (mkChunk (strL "Hi Bob") 0 true).text).length ∧
      (mkOverlapChunk (ChunkerCfg.mk 8 5) (mkChunk (strL "Hi Bob") 0 true)
            (mkChunk (strL "Bye now") 6 true)).end_char -
          (mkOverlapChunk (ChunkerCfg.mk 8 5) (mkChunk (strL "Hi Bob") 0 true)
            (mkChunk (strL "Bye now") 6 true)).start_char =
        ((mkChunk (strL "Bye now") 6 true).text.length : Int) +
          ((overlapTextOf (ChunkerCfg.mk 8 5)
            (mkChunk (strL "Hi Bob") 0 true).text).length : Int)) :=
  ⟨by decide, by decide, by decide, by decide,
    overlap_injection_amended (ChunkerCfg.mk 8 5)
      [mkChunk (strL "Hi Bob") 0 true, mkChunk (strL "Bye now") 6 true] 0
      (mkChunk (strL "Hi Bob") 0 true) (mkChunk (strL "Bye now") 6 true)
      (by decide) (by decide) (by decide) (by decide)⟩
